import Mathlib

/-!
Verification of the speaker-outreach pipeline (`src/utils/*.py`) against its
natural-language specification.

Modelling conventions:
* Python strings are modelled as `List Char` (`Str`), so that all string
  operations (`lower`, `strip`, `split`, substring tests) are executable and
  kernel-reducible.
* HTML parsing, the HTTP transport, and the LLM client are external
  collaborators (spec §1 declares them out of scope); they enter the model as
  function parameters (oracles).  A fallible external call is a value of
  `Except Str _`.
* `asyncio.gather` over per-item units is modelled as in-input-order sequential
  execution: the scheduling is single-threaded cooperative (spec §5) and every
  property proved here is insensitive to completion order.  An exception
  escaping a unit (no `try` in the source) makes the whole stage evaluate to
  `Except.error _`, exactly as the un-awaited exception propagates out of
  `gather` to the stage's caller.
* Each stage function returns, besides the Python return value, the trace of
  checkpoint-log appends and of external network/service calls it performs, so
  that claims about traffic and checkpointing are statable.
-/

abbrev Str := List Char

def str (s : String) : Str := s.data

/-- Python `s.lower()`. -/
def lower (s : Str) : Str := s.map Char.toLower

/-- Python `s.strip()`. -/
def strip (s : Str) : Str :=
  ((s.dropWhile Char.isWhitespace).reverse.dropWhile Char.isWhitespace).reverse

/-- Python `s.split(",")`. -/
def splitOnComma : Str → List Str
  | [] => [[]]
  | c :: rest =>
      let r := splitOnComma rest
      if c = ',' then [] :: r
      else
        match r with
        | [] => [[c]]
        | g :: gs => (c :: g) :: gs

/-- Python `needle in hay` on strings (substring test). -/
def pyIn (needle hay : Str) : Bool := decide (needle <:+: hay)

/-- Python `a or b` where `a`, `b` are `str | None` (both `None` and `""` are
falsy). -/
def orStr (a b : Option Str) : Option Str :=
  match a with
  | some s => if s.isEmpty then b else some s
  | none => b

/-! ## `src/utils/models.py` -/

/-- `CompanyCategory` (`models.py`). -/
inductive CompanyCategory
  | builder
  | owner
  | partner
  | competitor
  | other
deriving DecidableEq, Repr

/-- The `str`-enum value of each `CompanyCategory` member. -/
def CompanyCategory.value : CompanyCategory → Str
  | .builder => str "Builder"
  | .owner => str "Owner"
  | .partner => str "Partner"
  | .competitor => str "Competitor"
  | .other => str "Other"

/-- `Speaker` (`models.py`).  The `session_descriptions`/`sessions` fields are
omitted: no operation modelled here reads them (they only feed the generation
prompt, an external collaborator). -/
structure Speaker where
  name : Str
  title : Option Str := none
  company : Option Str := none
  bio : Option Str := none
  talk_titles : List Str := []
  url : Option Str := none
  company_category : Option CompanyCategory := none
deriving DecidableEq, Repr

/-- `EmailDraft` (`models.py`). -/
structure EmailDraft where
  subject : Str
  body : Str
deriving DecidableEq, Repr

/-- `RowOut` (`models.py`). -/
structure RowOut where
  speaker_name : Str
  speaker_title : Option Str
  speaker_company : Option Str
  company_category : CompanyCategory
  email_subject : Str
  email_body : Str
deriving DecidableEq, Repr

/-! ## `src/utils/classify.py` -/

def _COMPETITOR : List Str :=
  [str "pix4d", str "propeller", str "openspace", str "matterport", str "trimble",
   str "bentley", str "navvis", str "skydio", str "dji", str "reconstruct",
   str "sitevision", str "contextcapture", str "synchro"]

def _BUILDER : List Str :=
  [str "contractor", str "construction", str "builders", str "design-build",
   str "paving", str "mep", str "civil", str "earthworks", str "gc "]

def _OWNER : List Str :=
  [str "airport", str "rail", str "transit", str "authority", str "council",
   str "utility", str "energy", str "developer", str "reit", str "university",
   str "hospital", str "nhs", str "network rail", str "national highways"]

def _PARTNER : List Str :=
  [str "systems", str "consulting", str "integrator", str "reseller",
   str "software", str "platform", str "oem", str "marketplace",
   str "implementation"]

/-- `_hay` (`classify.py`): lowercased `" "`-join of the non-empty ones among
company, title, bio. -/
def _hay (sp : Speaker) : Str :=
  lower (List.intercalate (str " ")
    (([sp.company.getD [], sp.title.getD [], sp.bio.getD []]).filter
      (fun s => !s.isEmpty)))

/-- Does some keyword of `ks` occur in the haystack of `sp`? -/
def kwHit (ks : List Str) (sp : Speaker) : Bool :=
  ks.any (fun k => pyIn k (_hay sp))

/-- `heuristic_category` (`classify.py`). -/
def heuristic_category (sp : Speaker) : Option CompanyCategory :=
  if kwHit _COMPETITOR sp then some .competitor
  else if kwHit _BUILDER sp then some .builder
  else if kwHit _OWNER sp then some .owner
  else if kwHit _PARTNER sp then some .partner
  else none

/-- `Categorizer.categorize` (`classify.py`), with the `_llm` call abstracted
as an oracle `llm` returning the parsed categorization's category (or the
error surviving the client's internal retries). -/
def categorize (llm : Speaker → Except Str CompanyCategory) (sp : Speaker) :
    Except Str (Speaker × Str) :=
  match heuristic_category sp with
  | some h => .ok ({ sp with company_category := some h }, str "heuristic")
  | none =>
      match llm sp with
      | .ok c => .ok ({ sp with company_category := some c }, str "llm")
      | .error e => .error e

/-! ## `src/utils/parsing.py` -/

/-- `SpeakerSeed` (`parsing.py`). -/
structure SpeakerSeed where
  url : Str
  name : Option Str := none
  title : Option Str := none
  company : Option Str := none
deriving DecidableEq, Repr

/-- An `<a>` element as far as `extract_session_links_from_speaker` observes
it: its `href` attribute (if any). -/
structure Anchor where
  href : Option Str
deriving DecidableEq, Repr

def sessionsNeedle : Str := str "/sessions/"

/-- The second loop of `extract_session_links_from_speaker` (`parsing.py`):
`seen` starts empty and — exactly as in the source — is never added to. -/
def dedupNoRecord (seen : List Str) : List Str → List Str
  | [] => []
  | u :: rest =>
      if u ∈ seen then dedupNoRecord seen rest
      else u :: dedupNoRecord seen rest

/-- `extract_session_links_from_speaker` (`parsing.py`).  The document is the
list of its anchors; `join` is `urljoin(BASE, ·)` (a stdlib collaborator). -/
def extract_session_links_from_speaker (join : Str → Str) (doc : List Anchor) :
    List Str :=
  let links := doc.filterMap (fun a =>
    match a.href with
    | some h =>
        if pyIn sessionsNeedle h then
          (if h.isEmpty then none else some (join h))
        else none
    | none => none)
  dedupNoRecord [] links

/-- Stated from the claim's words: the absolutized href of every anchor whose
href contains `/sessions/`, in document order, duplicates kept. -/
def sessionLinksSpec (join : Str → Str) (doc : List Anchor) : List Str :=
  doc.filterMap (fun a =>
    a.href.bind (fun h => if pyIn sessionsNeedle h then some (join h) else none))

/-! ## `src/utils/io.py` -/

/-- The sequential body of `load_jsonl`'s list comprehension: `json.loads` per
surviving line; a malformed line raises (`parse` returns `none`), and the
exception is not caught (`load_jsonl` only catches `FileNotFoundError`). -/
def loadLines {α : Type} (parse : Str → Option α) : List Str → Except Str (List α)
  | [] => .ok []
  | l :: rest =>
      match parse l with
      | none => .error (str "json decode error")
      | some r => (loadLines parse rest).map (fun t => r :: t)

/-- `load_jsonl` (`io.py`): `file = none` models a missing file
(`FileNotFoundError` → `[]`); otherwise the file's lines, blank lines
discarded, are parsed in order. -/
def load_jsonl {α : Type} (parse : Str → Option α) (file : Option (List Str)) :
    Except Str (List α) :=
  match file with
  | none => .ok []
  | some lines => loadLines parse (lines.filter (fun l => !(strip l).isEmpty))

/-- One data row of the report CSV (`write_csv`'s six named columns). -/
structure CsvRow where
  name : Str
  title : Option Str
  company : Option Str
  category : Str
  subject : Str
  body : Str
deriving DecidableEq, Repr

def toCsvRow (r : RowOut) : CsvRow :=
  ⟨r.speaker_name, r.speaker_title, r.speaker_company, r.company_category.value,
   r.email_subject, r.email_body⟩

/-- The `drop_duplicates` key of `write_csv`: `["Speaker Name", "Speaker Company"]`. -/
def csvKey (r : CsvRow) : Str × Option Str := (r.name, r.company)

/-- `DataFrame.drop_duplicates(subset=key, keep="first")`. -/
def dropDupNameCompany (seen : List (Str × Option Str)) : List CsvRow → List CsvRow
  | [] => []
  | r :: rest =>
      if csvKey r ∈ seen then dropDupNameCompany seen rest
      else r :: dropDupNameCompany (csvKey r :: seen) rest

/-- `write_csv` (`io.py`) at row level (byte-level CSV serialization is out of
scope per spec §1).  `existing = none` models "file absent or empty". -/
def write_csv (existing : Option (List CsvRow)) (rows : List RowOut) :
    Option (List CsvRow) :=
  let newData := rows.map toCsvRow
  if newData.isEmpty then existing
  else
    match existing with
    | none => some newData
    | some ex => some (dropDupNameCompany [] (ex ++ newData))

/-! ## `src/utils/pipeline.py` -/

def defaultTargets : Finset CompanyCategory := {.builder, .owner}

/-- The dict `m` of `_targets_from_str`, applied to one comma-separated token. -/
def catKeyLookup (x : Str) : Option CompanyCategory :=
  let k := lower (strip x)
  if k = str "builders" then some .builder
  else if k = str "owners" then some .owner
  else if k = str "partners" then some .partner
  else if k = str "competitors" then some .competitor
  else if k = str "other" then some .other
  else none

/-- The set comprehension of `_targets_from_str` before the `discard`. -/
def parsedTargets (s : Str) : Finset CompanyCategory :=
  ((splitOnComma s).filterMap catKeyLookup).toFinset

/-- `_targets_from_str` (`pipeline.py`).  `none`/empty string are falsy. -/
def _targets_from_str (s : Option Str) : Finset CompanyCategory :=
  match s with
  | none => defaultTargets
  | some t =>
      if t.isEmpty then defaultTargets
      else if (parsedTargets t).erase .competitor = ∅ then defaultTargets
      else (parsedTargets t).erase .competitor

/-- One line of `in/emails.jsonl` as appended by `generate_emails` and read
back by `Pipeline.run`; every field is optional because `d.get(...)` of a
loaded record may be absent. -/
structure EmailRec where
  url : Option Str
  speaker_name : Option Str
  speaker_title : Option Str
  speaker_company : Option Str
  company_category : Option Str
  email_subject : Option Str
  email_body : Option Str
deriving DecidableEq, Repr

def mkEmailRec (sp : Speaker) (d : EmailDraft) : EmailRec :=
  ⟨sp.url, some sp.name, sp.title, sp.company,
   some (sp.company_category.getD .other).value, some d.subject, some d.body⟩

def mkRowOut (sp : Speaker) (d : EmailDraft) : RowOut :=
  ⟨sp.name, sp.title, sp.company, sp.company_category.getD .other,
   d.subject, d.body⟩

/-- The `selected` filter of `generate_emails`: category in the target set and
`is not competitor`; a `None` category fails the membership test. -/
def selectedSpeakers (ts : Finset CompanyCategory) (speakers : List Speaker) :
    List Speaker :=
  speakers.filter (fun s =>
    match s.company_category with
    | some c => decide (c ∈ ts) && !(c = CompanyCategory.competitor)
    | none => false)

/-- The fan-out of `generate_emails` over the selected speakers, in input
order.  Returns (returned rows, checkpoint appends to `in/emails.jsonl`,
speakers for which `emailer.draft` was invoked).  A draft failure is caught by
the unit's `try`/`except`: logged, no row, no append. -/
def generateGo (draft : Speaker → Except Str EmailDraft)
    (done : List (Option Str)) :
    List Speaker → List RowOut × List EmailRec × List Speaker
  | [] => ([], [], [])
  | sp :: rest =>
      let o := generateGo draft done rest
      if sp.url ∈ done then o
      else
        match draft sp with
        | .ok d => (mkRowOut sp d :: o.1, mkEmailRec sp d :: o.2.1, sp :: o.2.2)
        | .error _ => (o.1, o.2.1, sp :: o.2.2)

/-- The `target_set = target_set or {builder, owner}` line of
`generate_emails`: `None` and the empty set are falsy. -/
def resolveTargetSet (target_set : Option (Finset CompanyCategory)) :
    Finset CompanyCategory :=
  match target_set with
  | none => defaultTargets
  | some t => if t = ∅ then defaultTargets else t

/-- `Pipeline.generate_emails` (`pipeline.py`).  `done` is the url set loaded
from `in/emails.jsonl`. -/
def generate_emails (draft : Speaker → Except Str EmailDraft)
    (done : List (Option Str)) (speakers : List Speaker)
    (target_set : Option (Finset CompanyCategory)) :
    List RowOut × List EmailRec × List Speaker :=
  generateGo draft done (selectedSpeakers (resolveTargetSet target_set) speakers)

/-- The fan-out of `categorize_all`, in input order.  Returns (returned
speakers, checkpoint appends to `in/speakers_categorized.jsonl` paired with
their `decision_source`, speakers for which the LLM was invoked).  An
already-done speaker is returned as a fresh copy (`Speaker(**sp.model_dump())`,
equal in value); there is no `try` around `categorizer.categorize`, so an LLM
failure propagates and the stage evaluates to an error. -/
def categorizeGo (llm : Speaker → Except Str CompanyCategory)
    (done : List (Option Str)) :
    List Speaker → Except Str (List Speaker × List (Speaker × Str) × List Speaker)
  | [] => .ok ([], [], [])
  | sp :: rest =>
      if sp.url ∈ done then
        (categorizeGo llm done rest).map (fun o => (sp :: o.1, o.2.1, o.2.2))
      else
        match categorize llm sp with
        | .error e => .error e
        | .ok (sp2, src) =>
            (categorizeGo llm done rest).map (fun o =>
              (sp2 :: o.1, (sp2, src) :: o.2.1,
               (if (heuristic_category sp).isNone then [sp] else []) ++ o.2.2))

/-- `Pipeline.categorize_all` (`pipeline.py`). -/
def categorize_all (llm : Speaker → Except Str CompanyCategory)
    (done : List (Option Str)) (speakers : List Speaker) :
    Except Str (List Speaker × List (Speaker × Str) × List Speaker) :=
  categorizeGo llm done speakers

def BASE : Str := str "https://www.digitalconstructionweek.com"

def INDEX : Str := BASE ++ str "/all-speakers/"

/-- `_parse_detail_with_fallbacks` (`pipeline.py`); `pd` abstracts
`parse_speaker_detail` (html, url, fallback name). -/
def _parse_detail_with_fallbacks (pd : Str → Str → Option Str → Speaker)
    (html : Str) (url : Str) (seed : SpeakerSeed) : Speaker :=
  let sp := pd html url seed.name
  { sp with title := orStr sp.title seed.title,
            company := orStr sp.company seed.company }

/-- `if limit: seeds = seeds[:limit]` — `limit = 0` is falsy. -/
def applyLimit (limit : Option Nat) (seeds : List SpeakerSeed) : List SpeakerSeed :=
  match limit with
  | none => seeds
  | some n => if n = 0 then seeds else seeds.take n

/-- The `if title:` enrichment step of `scrape_all`'s unit: append the parsed
session title to `talk_titles` when it is truthy. -/
def scrapeEnrich (pt : Str → Option Str) (sp0 : Speaker) (shtml : Str) : Speaker :=
  match pt shtml with
  | some t =>
      if t.isEmpty then sp0
      else { sp0 with talk_titles := sp0.talk_titles ++ [t] }
  | none => sp0

/-- One unit of `scrape_all`: fetch the detail page, parse with fallbacks,
optionally follow the first session link.  Returns the enriched speaker and
the list of urls fetched; there is no `try`, so a fetch failure propagates. -/
def scrapeOne (f : Str → Except Str Str) (pd : Str → Str → Option Str → Speaker)
    (el : Str → List Str) (pt : Str → Option Str) (seed : SpeakerSeed) :
    Except Str (Speaker × List Str) :=
  match f seed.url with
  | .error e => .error e
  | .ok html =>
      match el html with
      | [] => .ok (_parse_detail_with_fallbacks pd html seed.url seed, [seed.url])
      | l :: _ =>
          match f l with
          | .error e => .error e
          | .ok shtml =>
              .ok (scrapeEnrich pt (_parse_detail_with_fallbacks pd html seed.url seed) shtml,
                   [seed.url, l])

/-- The fan-out of `scrape_all` over the seeds, in input order.  Returns
(returned speakers, checkpoint appends to `in/speakers_enriched.jsonl`, urls
fetched). -/
def scrapeGo (f : Str → Except Str Str) (pd : Str → Str → Option Str → Speaker)
    (el : Str → List Str) (pt : Str → Option Str) (done : List (Option Str)) :
    List SpeakerSeed → Except Str (List Speaker × List Speaker × List Str)
  | [] => .ok ([], [], [])
  | seed :: rest =>
      if (some seed.url) ∈ done then scrapeGo f pd el pt done rest
      else
        match scrapeOne f pd el pt seed with
        | .error e => .error e
        | .ok (sp, calls) =>
            (scrapeGo f pd el pt done rest).map (fun o =>
              (sp :: o.1, sp :: o.2.1, calls ++ o.2.2))

/-- `Pipeline.scrape_all` (`pipeline.py`).  `f` is `http.fetch` (outcome after
the client's internal retries), `pi` is `parse_index`, `pd`
`parse_speaker_detail`, `el` `extract_session_links_from_speaker`, `pt`
`parse_session_title` — all external collaborators here.  `done` is the url
set loaded from `in/speakers_enriched.jsonl`.  The index page is fetched
unconditionally at the start of every run. -/
def scrape_all (f : Str → Except Str Str) (pi : Str → List SpeakerSeed)
    (pd : Str → Str → Option Str → Speaker) (el : Str → List Str)
    (pt : Str → Option Str) (limit : Option Nat) (done : List (Option Str)) :
    Except Str (List Speaker × List Speaker × List Str) :=
  match f INDEX with
  | .error e => .error e
  | .ok idx =>
      (scrapeGo f pd el pt done (applyLimit limit (pi idx))).map (fun o =>
        (o.1, o.2.1, INDEX :: o.2.2))

/-- `CompanyCategory(value)` — the enum constructor on a loaded string, which
raises (→ `none`) on an unknown value. -/
def categoryOfValue (s : Str) : Option CompanyCategory :=
  if s = str "Builder" then some .builder
  else if s = str "Owner" then some .owner
  else if s = str "Partner" then some .partner
  else if s = str "Competitor" then some .competitor
  else if s = str "Other" then some .other
  else none

/-- The `RowOut(...)` construction inside `Pipeline.run`'s rematerialization:
pydantic rejects a missing `speaker_name` and an unknown category value; a
missing category defaults to `"Other"`; subject/body default to `""`.  The
surrounding `try`/`except` turns a failure into a skip (`none`). -/
def rowOfRec (d : EmailRec) : Option RowOut :=
  match d.speaker_name, categoryOfValue (d.company_category.getD (str "Other")) with
  | some nm, some cat =>
      some ⟨nm, d.speaker_title, d.speaker_company, cat,
            d.email_subject.getD [], d.email_body.getD []⟩
  | _, _ => none

/-- The url-deduplication loop of `Pipeline.run`'s rematerialization: a record
with a missing or empty url is skipped; the first record of each url wins, and
its url is recorded as seen even when the row construction fails. -/
def materializeRows (seen : List Str) : List EmailRec → List RowOut
  | [] => []
  | d :: rest =>
      match d.url with
      | none => materializeRows seen rest
      | some u =>
          if u.isEmpty then materializeRows seen rest
          else if u ∈ seen then materializeRows seen rest
          else
            match rowOfRec d with
            | some r => r :: materializeRows (u :: seen) rest
            | none => materializeRows (u :: seen) rest

/-- The report-rematerialization tail of `Pipeline.run` (lines 176–199):
reload the full `in/emails.jsonl` log, deduplicate by url, write the CSV. -/
def materializeReport (log : List EmailRec) (existing : Option (List CsvRow)) :
    Option (List CsvRow) :=
  write_csv existing (materializeRows [] log)

/-! ## Retry policy (`src/utils/http.py` / `src/utils/classify.py`)

Modelled from the spec: the `tenacity` combinators
`retry(stop=stop_after_attempt(5), wait=wait_exponential(multiplier=0.5, max=10)
+ wait_random(0, 0.5))` decorating `Http.fetch`, `Categorizer._llm` and
`Emailer.draft` are library code outside `src/`; only their parameters appear
in the source.  Per the spec the wait before each retry is an exponential
backoff starting at `multiplier`, doubling, capped at `max`, plus the jitter. -/

/-- Modelled from the spec: `wait_exponential(multiplier, max)` evaluated before
the `k`-th retry (`k = 0` is the wait after the first failed attempt). -/
def wait_exponential (multiplier maxWait : ℚ) (k : Nat) : ℚ :=
  min maxWait (multiplier * 2 ^ k)

/-- Modelled from the spec: the wait before the `k`-th retry under the source's
parameters, `jitter k ∈ [0, 0.5]` being the `wait_random(0, 0.5)` sample. -/
def retryWait (jitter : Nat → ℚ) (k : Nat) : ℚ :=
  wait_exponential (1/2) 10 k + jitter k

/-- Modelled from the spec: run attempts `i, i+1, ...` with `fuel` attempts
remaining; the error of the last attempt surfaces.  Returns the result and the
number of attempts made. -/
def retryExec {α : Type} (op : Nat → Except Str α) (i : Nat) :
    Nat → Except Str α × Nat
  | 0 => (.error (str "no attempts"), 0)
  | 1 => (op i, 1)
  | n + 2 =>
      match op i with
      | .ok v => (.ok v, 1)
      | .error _ =>
          ((retryExec op (i + 1) (n + 1)).1, (retryExec op (i + 1) (n + 1)).2 + 1)

/-- Modelled from the spec: the shared `stop_after_attempt(5)` policy wrapping
one bounded fetch or one intelligence call, `op k` being the outcome of the
`k`-th raw attempt. -/
def retryPolicy {α : Type} (op : Nat → Except Str α) : Except Str α × Nat :=
  retryExec op 0 5

/-! ## Specification-side functions used to state theorems -/

/-- Per-speaker row produced by `generate_emails` according to the spec: none
when skipped (already checkpointed) or when the draft fails. -/
def generateRowSpec (draft : Speaker → Except Str EmailDraft)
    (done : List (Option Str)) (sp : Speaker) : Option RowOut :=
  if sp.url ∈ done then none
  else
    match draft sp with
    | .ok d => some (mkRowOut sp d)
    | .error _ => none

/-- Per-speaker checkpoint append of `generate_emails` according to the spec. -/
def generateRecSpec (draft : Speaker → Except Str EmailDraft)
    (done : List (Option Str)) (sp : Speaker) : Option EmailRec :=
  if sp.url ∈ done then none
  else
    match draft sp with
    | .ok d => some (mkEmailRec sp d)
    | .error _ => none

/-- Distinct non-empty urls of a log, in first-occurrence order — the
identifiers the rematerialized report should have one row for. -/
def distinctUrls (seen : List Str) : List EmailRec → List Str
  | [] => []
  | d :: rest =>
      match d.url with
      | none => distinctUrls seen rest
      | some u =>
          if u.isEmpty then distinctUrls seen rest
          else if u ∈ seen then distinctUrls seen rest
          else u :: distinctUrls (u :: seen) rest

/-- A log record that the rematerialization can turn into a row (name present,
category value valid). -/
def wellFormedRec (d : EmailRec) : Bool := (rowOfRec d).isSome

deriving instance DecidableEq for Except

/-! ## Concrete fixtures (used by witnesses and counterexamples) -/

/-- A toy record parser: the line `bad` is malformed, everything else parses
to itself. -/
def demoParse (l : Str) : Option Str := if l = str "bad" then none else some l

/-- Matches both a competitor keyword (`pix4d`) and a builder keyword
(`contractor`). -/
def spBoth : Speaker := { name := str "A", company := some (str "Pix4D Contractors Ltd") }

/-- Matches no heuristic keyword. -/
def spNoKw : Speaker := { name := str "B" }

def llmOther : Speaker → Except Str CompanyCategory := fun _ => .ok .other

def llmBoom : Speaker → Except Str CompanyCategory := fun _ => .error (str "rate limited")

def draftOk : Speaker → Except Str EmailDraft := fun _ => .ok ⟨str "s", str "b"⟩

def spA : Speaker := { name := str "A", url := some (str "u1"), company_category := some .builder }

def spB : Speaker := { name := str "B", url := some (str "u2"), company_category := some .competitor }

def spC : Speaker := { name := str "C", url := some (str "u3"), company_category := some .owner }

/-- A trivial detail parser: name from the fallback, url recorded. -/
def pd0 : Str → Str → Option Str → Speaker :=
  fun _ u nm => { name := nm.getD (str "Unknown"), url := some u }

def el0 : Str → List Str := fun _ => []

def pt0 : Str → Option Str := fun _ => none

def fOk : Str → Except Str Str := fun _ => .ok (str "<html>")

/-- A fetch oracle failing (after the client's internal retries) on the detail
page `s1` only. -/
def fFail1 : Str → Except Str Str :=
  fun u => if u = str "s1" then .error (str "boom") else .ok (str "<html>")

def seed1 : SpeakerSeed := ⟨str "s1", some (str "A"), none, none⟩

def seed2 : SpeakerSeed := ⟨str "s2", some (str "B"), none, none⟩

def pi2 : Str → List SpeakerSeed := fun _ => [seed1, seed2]

def piA : Str → List SpeakerSeed := fun _ => [seed1]

/-- A draft oracle failing (after internal retries) for speaker `C` only. -/
def draftFailC : Speaker → Except Str EmailDraft :=
  fun sp => if sp.name = str "C" then .error (str "api error") else .ok ⟨str "s", str "b"⟩

def recU1 : EmailRec :=
  ⟨some (str "u1"), some (str "Alice"), none, some (str "Acme"),
   some (str "Builder"), some (str "s1"), some (str "b1")⟩

/-- Same speaker name and company as `recU1`, but a different identifier. -/
def recU2 : EmailRec :=
  ⟨some (str "u2"), some (str "Alice"), none, some (str "Acme"),
   some (str "Owner"), some (str "s2"), some (str "b2")⟩

def recB2 : EmailRec :=
  ⟨some (str "u2"), some (str "Bob"), none, some (str "Beta"),
   some (str "Owner"), some (str "s2"), some (str "b2")⟩

/-- The speaker scraped from `seed1` by `pd0`. -/
def spk1 : Speaker := { name := str "A", url := some (str "s1") }

/-- `spNoKw` as categorized by `llmOther`. -/
def spNoKwOther : Speaker := { spNoKw with company_category := some .other }

/-! ## Helper lemmas -/

theorem dedupNoRecord_nil : ∀ l : List Str, dedupNoRecord [] l = l := by
  intro l
  induction l with
  | nil => rfl
  | cons u rest ih => simp [dedupNoRecord, ih]

theorem pyIn_sessions_ne_nil {h : Str} (hp : pyIn sessionsNeedle h = true) :
    h.isEmpty = false := by
  cases h with
  | nil => exact absurd hp (by decide)
  | cons c rest => rfl

theorem value_inj : ∀ a b : CompanyCategory, a.value = b.value → a = b := by
  intro a b
  cases a <;> cases b <;> decide

theorem loadLines_all_ok {α : Type} (parse : Str → Option α) :
    ∀ lines : List Str, (∀ l ∈ lines, (parse l).isSome = true) →
      loadLines parse lines = .ok (lines.filterMap parse) := by
  intro lines
  induction lines with
  | nil => intro _; rfl
  | cons l rest ih =>
      intro h
      obtain ⟨r, hr⟩ := Option.isSome_iff_exists.mp (h l (by simp))
      have hrest := ih (fun x hx => h x (by simp [hx]))
      simp [loadLines, hr, hrest, List.filterMap_cons, Except.map]

theorem loadLines_err {α : Type} (parse : Str → Option α) :
    ∀ (lines : List Str) (l : Str), l ∈ lines → parse l = none →
      loadLines parse lines = .error (str "json decode error") := by
  intro lines
  induction lines with
  | nil => intro l h; simp at h
  | cons x rest ih =>
      intro l hmem hnone
      rcases List.mem_cons.mp hmem with hx | hx
      · subst hx; simp [loadLines, hnone]
      · cases hpx : parse x with
        | none => simp [loadLines, hpx]
        | some r => simp [loadLines, hpx, ih l hx hnone, Except.map]

theorem mem_selectedSpeakers {ts : Finset CompanyCategory} {l : List Speaker}
    {sp : Speaker} (h : sp ∈ selectedSpeakers ts l) :
    sp ∈ l ∧ ∃ c, sp.company_category = some c ∧ c ∈ ts ∧ c ≠ .competitor := by
  unfold selectedSpeakers at h
  rw [List.mem_filter] at h
  refine ⟨h.1, ?_⟩
  have h2 := h.2
  cases hc : sp.company_category with
  | none => rw [hc] at h2; simp at h2
  | some c =>
      rw [hc] at h2
      simp only [Bool.and_eq_true, decide_eq_true_eq, Bool.not_eq_true',
        decide_eq_false_iff_not] at h2
      exact ⟨c, rfl, h2.1, h2.2⟩

theorem generateGo_shape (draft : Speaker → Except Str EmailDraft)
    (done : List (Option Str)) :
    ∀ sel : List Speaker,
      (∀ r ∈ (generateGo draft done sel).1,
        ∃ sp d, sp ∈ sel ∧ draft sp = .ok d ∧ sp.url ∉ done ∧ r = mkRowOut sp d) ∧
      (∀ rec ∈ (generateGo draft done sel).2.1,
        ∃ sp d, sp ∈ sel ∧ draft sp = .ok d ∧ sp.url ∉ done ∧ rec = mkEmailRec sp d) ∧
      (∀ sp ∈ (generateGo draft done sel).2.2, sp ∈ sel ∧ sp.url ∉ done) := by
  intro sel
  induction sel with
  | nil => refine ⟨?_, ?_, ?_⟩ <;> intro x hx <;> simp [generateGo] at hx
  | cons sp rest ih =>
      by_cases hd : sp.url ∈ done
      · refine ⟨?_, ?_, ?_⟩
        · intro r hr
          simp only [generateGo, if_pos hd] at hr
          obtain ⟨sp', d, hm, ho, hnd, he⟩ := ih.1 r hr
          exact ⟨sp', d, by simp [hm], ho, hnd, he⟩
        · intro rec hr
          simp only [generateGo, if_pos hd] at hr
          obtain ⟨sp', d, hm, ho, hnd, he⟩ := ih.2.1 rec hr
          exact ⟨sp', d, by simp [hm], ho, hnd, he⟩
        · intro sp' hr
          simp only [generateGo, if_pos hd] at hr
          obtain ⟨hm, hnd⟩ := ih.2.2 sp' hr
          exact ⟨by simp [hm], hnd⟩
      · cases hdr : draft sp with
        | ok d =>
            refine ⟨?_, ?_, ?_⟩
            · intro r hr
              simp only [generateGo, if_neg hd, hdr] at hr
              rcases List.mem_cons.mp hr with hh | hh
              · exact ⟨sp, d, by simp, hdr, hd, hh⟩
              · obtain ⟨sp', d', hm, ho, hnd, he⟩ := ih.1 r hh
                exact ⟨sp', d', by simp [hm], ho, hnd, he⟩
            · intro rec hr
              simp only [generateGo, if_neg hd, hdr] at hr
              rcases List.mem_cons.mp hr with hh | hh
              · exact ⟨sp, d, by simp, hdr, hd, hh⟩
              · obtain ⟨sp', d', hm, ho, hnd, he⟩ := ih.2.1 rec hh
                exact ⟨sp', d', by simp [hm], ho, hnd, he⟩
            · intro sp' hr
              simp only [generateGo, if_neg hd, hdr] at hr
              rcases List.mem_cons.mp hr with hh | hh
              · subst hh; exact ⟨by simp, hd⟩
              · obtain ⟨hm, hnd⟩ := ih.2.2 sp' hh
                exact ⟨by simp [hm], hnd⟩
        | error e =>
            refine ⟨?_, ?_, ?_⟩
            · intro r hr
              simp only [generateGo, if_neg hd, hdr] at hr
              obtain ⟨sp', d', hm, ho, hnd, he⟩ := ih.1 r hr
              exact ⟨sp', d', by simp [hm], ho, hnd, he⟩
            · intro rec hr
              simp only [generateGo, if_neg hd, hdr] at hr
              obtain ⟨sp', d', hm, ho, hnd, he⟩ := ih.2.1 rec hr
              exact ⟨sp', d', by simp [hm], ho, hnd, he⟩
            · intro sp' hr
              simp only [generateGo, if_neg hd, hdr] at hr
              rcases List.mem_cons.mp hr with hh | hh
              · subst hh; exact ⟨by simp, hd⟩
              · obtain ⟨hm, hnd⟩ := ih.2.2 sp' hh
                exact ⟨by simp [hm], hnd⟩

theorem generate_over_selected (draft : Speaker → Except Str EmailDraft)
    (done : List (Option Str)) (ts : Finset CompanyCategory)
    (speakers : List Speaker) :
    (∀ r ∈ (generateGo draft done (selectedSpeakers ts speakers)).1,
      r.company_category ≠ .competitor) ∧
    (∀ sp ∈ (generateGo draft done (selectedSpeakers ts speakers)).2.2,
      sp.company_category ≠ some .competitor) ∧
    (∀ rec ∈ (generateGo draft done (selectedSpeakers ts speakers)).2.1,
      rec.company_category ≠ some CompanyCategory.competitor.value) := by
  have hs := generateGo_shape draft done (selectedSpeakers ts speakers)
  refine ⟨?_, ?_, ?_⟩
  · intro r hr
    obtain ⟨sp, d, hm, _, _, he⟩ := hs.1 r hr
    obtain ⟨_, c, hc, _, hcc⟩ := mem_selectedSpeakers hm
    subst he
    simp [mkRowOut, hc]
    exact hcc
  · intro sp hm0
    obtain ⟨hm, _⟩ := hs.2.2 sp hm0
    obtain ⟨_, c, hc, _, hcc⟩ := mem_selectedSpeakers hm
    rw [hc]
    intro hcon
    exact hcc (Option.some_injective _ hcon)
  · intro rec hr
    obtain ⟨sp, d, hm, _, _, he⟩ := hs.2.1 rec hr
    obtain ⟨_, c, hc, _, hcc⟩ := mem_selectedSpeakers hm
    subst he
    simp [mkEmailRec, hc]
    intro hcon
    exact hcc (value_inj _ _ hcon)

/-! ## Claim theorems -/

/-- C1: for every speaker list and target-category set passed to
`generate_emails` (including sets containing the competitor category), no
speaker whose `company_category` is competitor is sent to the emailer or
produces an output row, and no appended generated-message record carries the
competitor category value. -/
theorem generate_emails_never_competitor (draft : Speaker → Except Str EmailDraft)
    (done : List (Option Str)) (speakers : List Speaker)
    (target_set : Option (Finset CompanyCategory)) :
    (∀ r ∈ (generate_emails draft done speakers target_set).1,
      r.company_category ≠ .competitor) ∧
    (∀ sp ∈ (generate_emails draft done speakers target_set).2.2,
      sp.company_category ≠ some .competitor) ∧
    (∀ rec ∈ (generate_emails draft done speakers target_set).2.1,
      rec.company_category ≠ some CompanyCategory.competitor.value) := by
  cases target_set with
  | none => exact generate_over_selected draft done defaultTargets speakers
  | some t =>
      by_cases h0 : t = ∅
      · simpa [generate_emails, resolveTargetSet, h0] using
          generate_over_selected draft done defaultTargets speakers
      · simpa [generate_emails, resolveTargetSet, h0] using
          generate_over_selected draft done t speakers

/-- Witness for C1 at a concrete input: with one builder and one competitor
speaker, the builder's row is produced and is not competitor-labelled, and the
emailed speaker is not a competitor. -/
theorem generate_emails_never_competitor_witness :
    (⟨str "A", none, none, .builder, str "s", str "b"⟩ : RowOut) ∈
      (generate_emails draftOk [] [spA, spB] none).1 ∧
    (⟨str "A", none, none, .builder, str "s", str "b"⟩ : RowOut).company_category ≠
      .competitor ∧
    spA ∈ (generate_emails draftOk [] [spA, spB] none).2.2 ∧
    spA.company_category ≠ some .competitor := by
  refine ⟨by decide, ?_, by decide, ?_⟩
  · exact (generate_emails_never_competitor draftOk [] [spA, spB] none).1 _ (by decide)
  · exact (generate_emails_never_competitor draftOk [] [spA, spB] none).2.1 spA (by decide)

/-- C9: for every input (including `None`, the empty string, and strings
naming no recognized category), `_targets_from_str` returns a non-empty set
never containing the competitor category, and whenever filtering leaves
nothing valid it returns the default set `{builder, owner}`. -/
theorem targets_from_str_safe (s : Option Str) :
    _targets_from_str s ≠ ∅ ∧
    CompanyCategory.competitor ∉ _targets_from_str s ∧
    defaultTargets = {CompanyCategory.builder, CompanyCategory.owner} ∧
    (∀ t, s = some t → t.isEmpty = false →
      (parsedTargets t).erase CompanyCategory.competitor = ∅ →
      _targets_from_str s = defaultTargets) := by
  cases s with
  | none =>
      refine ⟨by decide, by decide, rfl, ?_⟩
      intro t ht
      simp at ht
  | some t =>
      by_cases hE : t.isEmpty = true
      · refine ⟨?_, ?_, rfl, ?_⟩
        · simp [_targets_from_str, hE]; decide
        · simp [_targets_from_str, hE]; decide
        · intro t' ht' hE'
          rw [Option.some_inj] at ht'
          subst ht'
          rw [hE'] at hE
          simp at hE
      · rw [Bool.not_eq_true] at hE
        by_cases h0 : (parsedTargets t).erase CompanyCategory.competitor = ∅
        · refine ⟨?_, ?_, rfl, ?_⟩
          · simp [_targets_from_str, hE, h0]; decide
          · simp [_targets_from_str, hE, h0]; decide
          · intro t' ht' hE' h0'
            simp [_targets_from_str, hE, h0]
        · refine ⟨?_, ?_, rfl, ?_⟩
          · simp [_targets_from_str, hE, h0]
          · simp [_targets_from_str, hE, h0]
          · intro t' ht' hE' h0'
            rw [Option.some_inj] at ht'
            subst ht'
            exact absurd h0' h0

/-- Witness for C9 at a concrete input: a target string naming only the
competitor category filters down to nothing valid and falls back to the
default set, which is non-empty and competitor-free. -/
theorem targets_from_str_safe_witness :
    _targets_from_str (some (str "competitors")) = defaultTargets ∧
    _targets_from_str (some (str "competitors")) ≠ ∅ ∧
    CompanyCategory.competitor ∉ _targets_from_str (some (str "competitors")) := by
  refine ⟨?_, (targets_from_str_safe (some (str "competitors"))).1,
    (targets_from_str_safe (some (str "competitors"))).2.1⟩
  exact (targets_from_str_safe (some (str "competitors"))).2.2.2 _ rfl
    (by decide) (by decide)

/-- C5 (amended): `load_jsonl` returns every record in append order when every
non-blank line parses, and an empty list when the file does not exist; but a
malformed (non-JSON) line is not skipped — `json.loads` raises, only
`FileNotFoundError` is caught, so the whole load fails and no records are
returned. -/
theorem load_jsonl_behavior {α : Type} (parse : Str → Option α) :
    load_jsonl parse (none : Option (List Str)) = .ok ([] : List α) ∧
    (∀ lines : List Str,
      (∀ l ∈ lines, (strip l).isEmpty = false → (parse l).isSome = true) →
      load_jsonl parse (some lines) =
        .ok ((lines.filter (fun l => !(strip l).isEmpty)).filterMap parse)) ∧
    (∀ (lines : List Str) (l : Str),
      l ∈ lines → (strip l).isEmpty = false → parse l = none →
      load_jsonl parse (some lines) = .error (str "json decode error")) := by
  refine ⟨rfl, ?_, ?_⟩
  · intro lines h
    unfold load_jsonl
    apply loadLines_all_ok
    intro l hl
    rw [List.mem_filter] at hl
    exact h l hl.1 (by simpa using hl.2)
  · intro lines l hmem hne hnone
    unfold load_jsonl
    exact loadLines_err parse _ l (List.mem_filter.mpr ⟨hmem, by simp [hne]⟩) hnone

/-- Counterexample to C5 as stated: a malformed middle line does prevent the
remaining lines from being loaded — the load returns an error, not the other
records. -/
theorem load_jsonl_malformed_line_aborts :
    load_jsonl demoParse (some [str "good", str "bad", str "rest"]) =
      .error (str "json decode error") ∧
    load_jsonl demoParse (some [str "good", str "bad", str "rest"]) ≠
      .ok [str "good", str "rest"] := by
  refine ⟨by decide, by decide⟩

/-- Witness for C5 (amended) at concrete inputs: an all-well-formed file loads
every record in order (a blank line is dropped), and a file with a malformed
line errors out. -/
theorem load_jsonl_behavior_witness :
    load_jsonl demoParse (some [str "good", str "  ", str "rest"]) =
      .ok [str "good", str "rest"] ∧
    load_jsonl demoParse (some [str "bad"]) = .error (str "json decode error") := by
  constructor
  · have h := (load_jsonl_behavior demoParse).2.1 [str "good", str "  ", str "rest"]
      (by decide)
    rw [h]
    decide
  · exact (load_jsonl_behavior demoParse).2.2 [str "bad"] (str "bad")
      (by decide) (by decide) (by decide)

/-- C7: the heuristic classifier checks competitor, then builder, then owner,
then partner keywords over the lowercased concatenation of company, title and
bio, first match wins; a record matching both a competitor and a builder
keyword classifies as competitor, and a record matching no keyword falls
through to the intelligence (LLM) call in `Categorizer.categorize`. -/
theorem heuristic_first_match_order (llm : Speaker → Except Str CompanyCategory)
    (sp : Speaker) :
    (kwHit _COMPETITOR sp = true → heuristic_category sp = some .competitor) ∧
    (kwHit _COMPETITOR sp = false → kwHit _BUILDER sp = true →
      heuristic_category sp = some .builder) ∧
    (kwHit _COMPETITOR sp = false → kwHit _BUILDER sp = false →
      kwHit _OWNER sp = true → heuristic_category sp = some .owner) ∧
    (kwHit _COMPETITOR sp = false → kwHit _BUILDER sp = false →
      kwHit _OWNER sp = false → kwHit _PARTNER sp = true →
      heuristic_category sp = some .partner) ∧
    (heuristic_category sp = none ↔
      (kwHit _COMPETITOR sp = false ∧ kwHit _BUILDER sp = false ∧
       kwHit _OWNER sp = false ∧ kwHit _PARTNER sp = false)) ∧
    (heuristic_category sp = none →
      categorize llm sp =
        match llm sp with
        | .ok c => .ok ({ sp with company_category := some c }, str "llm")
        | .error e => .error e) := by
  refine ⟨?_, ?_, ?_, ?_, ?_, ?_⟩
  · intro h1; simp [heuristic_category, h1]
  · intro h1 h2; simp [heuristic_category, h1, h2]
  · intro h1 h2 h3; simp [heuristic_category, h1, h2, h3]
  · intro h1 h2 h3 h4; simp [heuristic_category, h1, h2, h3, h4]
  · constructor
    · intro h
      simp only [heuristic_category] at h
      split_ifs at h with h1 h2 h3 h4
      exact ⟨by simpa using h1, by simpa using h2, by simpa using h3,
        by simpa using h4⟩
    · rintro ⟨h1, h2, h3, h4⟩
      simp [heuristic_category, h1, h2, h3, h4]
  · intro h
    simp [categorize, h]

/-- Witness for C7 at concrete inputs: a speaker matching both a competitor
keyword (pix4d) and a builder keyword (contractor) classifies as competitor,
and a keywordless speaker falls through to the LLM. -/
theorem heuristic_first_match_order_witness :
    kwHit _COMPETITOR spBoth = true ∧
    kwHit _BUILDER spBoth = true ∧
    heuristic_category spBoth = some .competitor ∧
    heuristic_category spNoKw = none ∧
    categorize llmOther spNoKw =
      .ok ({ spNoKw with company_category := some .other }, str "llm") := by
  refine ⟨by decide, by decide,
    (heuristic_first_match_order llmOther spBoth).1 (by decide),
    (heuristic_first_match_order llmOther spNoKw).2.2.2.2.1.mpr (by decide), ?_⟩
  have h := (heuristic_first_match_order llmOther spNoKw).2.2.2.2.2
    ((heuristic_first_match_order llmOther spNoKw).2.2.2.2.1.mpr (by decide))
  rw [h]
  decide

/-- C10: `extract_session_links_from_speaker` returns the absolutized href of
every anchor whose href contains `/sessions/`, in document order and without
removing duplicates: its deduplication loop never records any link as seen, so
the output equals the full collected link list. -/
theorem extract_session_links_keeps_duplicates (join : Str → Str)
    (doc : List Anchor) :
    extract_session_links_from_speaker join doc = sessionLinksSpec join doc := by
  simp only [extract_session_links_from_speaker, sessionLinksSpec]
  rw [dedupNoRecord_nil]
  apply List.filterMap_congr
  intro a _
  cases ha : a.href with
  | none => rfl
  | some h =>
      cases hp : pyIn sessionsNeedle h with
      | false => simp [hp]
      | true => simp [hp, pyIn_sessions_ne_nil hp]

theorem except_map_ok {ε α β : Type} {f : α → β} {e : Except ε α} {v : β}
    (h : e.map f = .ok v) : ∃ u, e = .ok u ∧ v = f u := by
  cases e with
  | error e' => simp [Except.map] at h
  | ok u =>
      simp [Except.map] at h
      exact ⟨u, rfl, h.symm⟩

theorem except_map_isOk {ε α β : Type} (f : α → β) (e : Except ε α) :
    (e.map f).isOk = e.isOk := by
  cases e <;> rfl

theorem categorize_preserves_url {llm : Speaker → Except Str CompanyCategory}
    {sp : Speaker} {p : Speaker × Str} (h : categorize llm sp = .ok p) :
    p.1.url = sp.url := by
  unfold categorize at h
  cases hh : heuristic_category sp with
  | some c =>
      simp only [hh] at h
      injection h with h2
      subst h2
      rfl
  | none =>
      simp only [hh] at h
      cases hl : llm sp with
      | ok c =>
          simp only [hl] at h
          injection h with h2
          subst h2
          rfl
      | error e =>
          simp only [hl] at h
          cases h

theorem categorizeGo_replay (llm : Speaker → Except Str CompanyCategory)
    (done : List (Option Str)) :
    ∀ (speakers out : List Speaker) (recs : List (Speaker × Str))
      (calls : List Speaker),
      categorizeGo llm done speakers = .ok (out, recs, calls) →
      ∀ sp ∈ speakers, sp.url ∈ done → sp ∈ out := by
  intro speakers
  induction speakers with
  | nil =>
      intro out recs calls h sp hmem
      simp at hmem
  | cons x rest ih =>
      intro out recs calls h sp hmem hd
      by_cases hx : x.url ∈ done
      · simp only [categorizeGo, if_pos hx] at h
        obtain ⟨⟨o1, o2, o3⟩, ho, hv⟩ := except_map_ok h
        have hout : out = x :: o1 := congrArg Prod.fst hv
        rcases List.mem_cons.mp hmem with he | he
        · subst he; rw [hout]; exact List.mem_cons_self _ _
        · have := ih o1 o2 o3 ho sp he hd
          rw [hout]; exact List.mem_cons_of_mem _ this
      · simp only [categorizeGo, if_neg hx] at h
        cases hc : categorize llm x with
        | error e => rw [hc] at h; cases h
        | ok p =>
            rw [hc] at h
            obtain ⟨⟨o1, o2, o3⟩, ho, hv⟩ := except_map_ok h
            have hout : out = p.1 :: o1 := congrArg Prod.fst hv
            rcases List.mem_cons.mp hmem with he | he
            · subst he; exact absurd hd hx
            · have := ih o1 o2 o3 ho sp he hd
              rw [hout]; exact List.mem_cons_of_mem _ this

theorem generateGo_len (draft : Speaker → Except Str EmailDraft)
    (done : List (Option Str)) :
    ∀ sel : List Speaker,
      (generateGo draft done sel).1.length = (generateGo draft done sel).2.1.length := by
  intro sel
  induction sel with
  | nil => rfl
  | cons sp rest ih =>
      by_cases hd : sp.url ∈ done
      · simpa only [generateGo, if_pos hd] using ih
      · cases hdr : draft sp with
        | ok d => simp only [generateGo, if_neg hd, hdr, List.length_cons, ih]
        | error e => simpa only [generateGo, if_neg hd, hdr] using ih

theorem pdwf_url {pd : Str → Str → Option Str → Speaker}
    (hurl : ∀ html url nm, (pd html url nm).url = some url)
    (html : Str) (url : Str) (seed : SpeakerSeed) :
    (_parse_detail_with_fallbacks pd html url seed).url = some url := by
  simpa [_parse_detail_with_fallbacks] using hurl html url seed.name

theorem scrapeEnrich_url (pt : Str → Option Str) (sp0 : Speaker) (shtml : Str) :
    (scrapeEnrich pt sp0 shtml).url = sp0.url := by
  unfold scrapeEnrich
  cases hpt : pt shtml with
  | none => rfl
  | some t =>
      by_cases ht : t.isEmpty = true
      · simp [ht]
      · simp [ht]

theorem scrapeOne_url {f : Str → Except Str Str}
    {pd : Str → Str → Option Str → Speaker} {el : Str → List Str}
    {pt : Str → Option Str} {seed : SpeakerSeed} {sp : Speaker} {calls : List Str}
    (hurl : ∀ html url nm, (pd html url nm).url = some url)
    (h : scrapeOne f pd el pt seed = .ok (sp, calls)) : sp.url = some seed.url := by
  unfold scrapeOne at h
  cases hf : f seed.url with
  | error e => simp only [hf] at h; cases h
  | ok html =>
      simp only [hf] at h
      cases hel : el html with
      | nil =>
          simp only [hel, Except.ok.injEq, Prod.mk.injEq] at h
          rw [← h.1]
          exact pdwf_url hurl html seed.url seed
      | cons l ls =>
          simp only [hel] at h
          cases hf2 : f l with
          | error e => simp only [hf2] at h; cases h
          | ok shtml =>
              simp only [hf2, Except.ok.injEq, Prod.mk.injEq] at h
              rw [← h.1, scrapeEnrich_url]
              exact pdwf_url hurl html seed.url seed

theorem scrapeGo_out_not_done {f : Str → Except Str Str}
    {pd : Str → Str → Option Str → Speaker} {el : Str → List Str}
    {pt : Str → Option Str} {done : List (Option Str)}
    (hurl : ∀ html url nm, (pd html url nm).url = some url) :
    ∀ (seeds : List SpeakerSeed) (out recs : List Speaker) (calls : List Str),
      scrapeGo f pd el pt done seeds = .ok (out, recs, calls) →
      ∀ sp ∈ out, sp.url ∉ done := by
  intro seeds
  induction seeds with
  | nil =>
      intro out recs calls h sp hmem
      simp only [scrapeGo, Except.ok.injEq, Prod.mk.injEq] at h
      obtain ⟨h1, h2, h3⟩ := h
      subst h1
      simp at hmem
  | cons seed rest ih =>
      intro out recs calls h sp hmem
      by_cases hd : (some seed.url) ∈ done
      · simp only [scrapeGo, if_pos hd] at h
        exact ih out recs calls h sp hmem
      · simp only [scrapeGo, if_neg hd] at h
        cases hs : scrapeOne f pd el pt seed with
        | error e => rw [hs] at h; cases h
        | ok p =>
            rw [hs] at h
            obtain ⟨⟨o1, o2, o3⟩, ho, hv⟩ := except_map_ok h
            have hout : out = p.1 :: o1 := congrArg Prod.fst hv
            rw [hout] at hmem
            rcases List.mem_cons.mp hmem with he | he
            · subst he
              have hpu : p.1.url = some seed.url := by
                obtain ⟨sp1, c1⟩ := p
                exact scrapeOne_url hurl hs
              rw [hpu]
              exact hd
            · exact ih o1 o2 o3 ho sp he

/-- Counterexample to C3 as stated: `categorize_all` does return a
checkpoint-replay item.  Speaker `spC`'s url is already in the stage's
checkpoint-log url set, yet the stage's returned list contains it (a copy via
`Speaker(**sp.model_dump())`); no LLM call and no append happen for it. -/
theorem categorize_all_returns_replay :
    spC.url ∈ [some (str "u3")] ∧
    categorize_all llmBoom [some (str "u3")] [spC] = .ok ([spC], [], []) := by
  exact ⟨by decide, by decide⟩

/-- C3 (amended): `scrape_all` and `generate_emails` return only items newly
produced in this run — an item whose identifier is already in the stage's
checkpoint log never appears in their returned lists (and every generated row
is matched one-to-one by a new checkpoint append) — but `categorize_all` also
returns a value-equal copy of every already-checkpointed input item. -/
theorem stage_returns_vs_replays
    (f : Str → Except Str Str) (pi : Str → List SpeakerSeed)
    (pd : Str → Str → Option Str → Speaker) (el : Str → List Str)
    (pt : Str → Option Str) (limit : Option Nat) (sdone : List (Option Str))
    (sout srecs : List Speaker) (scalls : List Str)
    (llm : Speaker → Except Str CompanyCategory) (cdone : List (Option Str))
    (cspeakers cout : List Speaker) (crecs : List (Speaker × Str))
    (ccalls : List Speaker)
    (draft : Speaker → Except Str EmailDraft) (gdone : List (Option Str))
    (gspeakers : List Speaker) (ts : Option (Finset CompanyCategory)) :
    ((∀ html url nm, (pd html url nm).url = some url) →
      scrape_all f pi pd el pt limit sdone = .ok (sout, srecs, scalls) →
      ∀ sp ∈ sout, sp.url ∉ sdone) ∧
    (categorize_all llm cdone cspeakers = .ok (cout, crecs, ccalls) →
      ∀ sp ∈ cspeakers, sp.url ∈ cdone → sp ∈ cout) ∧
    (∀ sp ∈ (generate_emails draft gdone gspeakers ts).2.2, sp.url ∉ gdone) ∧
    (∀ rec ∈ (generate_emails draft gdone gspeakers ts).2.1, rec.url ∉ gdone) ∧
    (generate_emails draft gdone gspeakers ts).1.length =
      (generate_emails draft gdone gspeakers ts).2.1.length := by
  refine ⟨?_, ?_, ?_, ?_, ?_⟩
  · intro hurl h
    unfold scrape_all at h
    cases hfi : f INDEX with
    | error e => simp only [hfi] at h; cases h
    | ok idx =>
        simp only [hfi] at h
        obtain ⟨⟨o1, o2, o3⟩, ho, hv⟩ := except_map_ok h
        have h1 : sout = o1 := congrArg Prod.fst hv
        rw [h1]
        exact scrapeGo_out_not_done hurl _ o1 o2 o3 ho
  · intro h
    exact categorizeGo_replay llm cdone cspeakers cout crecs ccalls h
  · intro sp hmem
    exact ((generateGo_shape draft gdone _).2.2 sp hmem).2
  · intro rec hmem
    obtain ⟨sp, d, _, _, hnd, he⟩ := (generateGo_shape draft gdone _).2.1 rec hmem
    subst he
    exact hnd
  · exact generateGo_len draft gdone _

/-- Witness for the amended C3 at concrete inputs: a fresh scrape returns only
the newly scraped speaker (whose url was not in the log), a categorize run
returns its replay, and a generate run drafts only speakers outside the log. -/
theorem stage_returns_vs_replays_witness :
    ({ name := str "A", url := some (str "s1") } : Speaker).url ∉
      [some (str "zz")] ∧
    spC ∈ [spC] ∧
    spA.url ∉ [some (str "zz")] := by
  refine ⟨?_, ?_, ?_⟩
  · exact (stage_returns_vs_replays fOk piA pd0 el0 pt0 none [some (str "zz")]
      [{ name := str "A", url := some (str "s1") }]
      [{ name := str "A", url := some (str "s1") }]
      [INDEX, str "s1"] llmBoom [some (str "u3")] [spC] [spC] [] []
      draftOk [some (str "zz")] [spA] none).1
      (fun _ _ _ => rfl) (by decide) _ (by decide)
  · exact (stage_returns_vs_replays fOk piA pd0 el0 pt0 none [some (str "zz")]
      [{ name := str "A", url := some (str "s1") }]
      [{ name := str "A", url := some (str "s1") }]
      [INDEX, str "s1"] llmBoom [some (str "u3")] [spC] [spC] [] []
      draftOk [some (str "zz")] [spA] none).2.1
      (by decide) spC (by decide) (by decide)
  · exact (stage_returns_vs_replays fOk piA pd0 el0 pt0 none [some (str "zz")]
      [{ name := str "A", url := some (str "s1") }]
      [{ name := str "A", url := some (str "s1") }]
      [INDEX, str "s1"] llmBoom [some (str "u3")] [spC] [spC] [] []
      draftOk [some (str "zz")] [spA] none).2.2.1
      spA (by decide)

theorem generateGo_eq_spec (draft : Speaker → Except Str EmailDraft)
    (done : List (Option Str)) :
    ∀ sel : List Speaker,
      generateGo draft done sel =
        (sel.filterMap (generateRowSpec draft done),
         sel.filterMap (generateRecSpec draft done),
         sel.filter (fun sp => !decide (sp.url ∈ done))) := by
  intro sel
  induction sel with
  | nil => rfl
  | cons sp rest ih =>
      by_cases hd : sp.url ∈ done
      · simp [generateGo, generateRowSpec, generateRecSpec, hd, ih]
      · cases hdr : draft sp with
        | ok d => simp [generateGo, generateRowSpec, generateRecSpec, hd, hdr, ih]
        | error e => simp [generateGo, generateRowSpec, generateRecSpec, hd, hdr, ih]

theorem categorizeGo_ok_units (llm : Speaker → Except Str CompanyCategory)
    (done : List (Option Str)) :
    ∀ speakers : List Speaker,
      (categorizeGo llm done speakers).isOk = true →
      ∀ sp ∈ speakers, sp.url ∉ done → heuristic_category sp = none →
        (llm sp).isOk = true := by
  intro speakers
  induction speakers with
  | nil => intro _ sp hmem; simp at hmem
  | cons x rest ih =>
      intro hOk sp hmem hnd hnone
      by_cases hx : x.url ∈ done
      · simp only [categorizeGo, if_pos hx, except_map_isOk] at hOk
        rcases List.mem_cons.mp hmem with he | he
        · subst he; exact absurd hx hnd
        · exact ih hOk sp he hnd hnone
      · simp only [categorizeGo, if_neg hx] at hOk
        cases hc : categorize llm x with
        | error e => rw [hc] at hOk; simp [Except.isOk, Except.toBool] at hOk
        | ok p =>
            rw [hc] at hOk
            simp only [except_map_isOk] at hOk
            rcases List.mem_cons.mp hmem with he | he
            · subst he
              unfold categorize at hc
              rw [hnone] at hc
              cases hl : llm sp with
              | ok c => rfl
              | error e => rw [hl] at hc; cases hc
            · exact ih hOk sp he hnd hnone

theorem scrapeOne_fetch_ok {f : Str → Except Str Str}
    {pd : Str → Str → Option Str → Speaker} {el : Str → List Str}
    {pt : Str → Option Str} {seed : SpeakerSeed} {p : Speaker × List Str}
    (h : scrapeOne f pd el pt seed = .ok p) : (f seed.url).isOk = true := by
  unfold scrapeOne at h
  cases hf : f seed.url with
  | error e => simp only [hf] at h; cases h
  | ok html => rfl

theorem scrapeGo_fetch_ok {f : Str → Except Str Str}
    {pd : Str → Str → Option Str → Speaker} {el : Str → List Str}
    {pt : Str → Option Str} {done : List (Option Str)} :
    ∀ seeds : List SpeakerSeed,
      (scrapeGo f pd el pt done seeds).isOk = true →
      ∀ seed ∈ seeds, (some seed.url) ∉ done → (f seed.url).isOk = true := by
  intro seeds
  induction seeds with
  | nil => intro _ seed hmem; simp at hmem
  | cons x rest ih =>
      intro hOk seed hmem hnd
      by_cases hx : (some x.url) ∈ done
      · simp only [scrapeGo, if_pos hx] at hOk
        rcases List.mem_cons.mp hmem with he | he
        · subst he; exact absurd hx hnd
        · exact ih hOk seed he hnd
      · simp only [scrapeGo, if_neg hx] at hOk
        cases hs : scrapeOne f pd el pt x with
        | error e => rw [hs] at hOk; simp [Except.isOk, Except.toBool] at hOk
        | ok p =>
            rw [hs] at hOk
            simp only [except_map_isOk] at hOk
            rcases List.mem_cons.mp hmem with he | he
            · subst he; exact scrapeOne_fetch_ok hs
            · exact ih hOk seed he hnd

/-- Counterexample to C4 as stated: there is no `try` around the scrape and
categorize units, so one item's failure (after the client's internal retries)
aborts the whole stage instead of being logged and skipped — the stage
evaluates to an error and returns no results at all, sibling items included. -/
theorem scrape_unit_failure_aborts_stage :
    scrape_all fFail1 pi2 pd0 el0 pt0 none [] = .error (str "boom") ∧
    categorize_all llmBoom [] [spNoKw] = .error (str "rate limited") := by
  exact ⟨by decide, by decide⟩

/-- C4 (amended): only the email-generation stage isolates per-item failures —
a failing draft yields no row and no checkpoint append for that item while
every sibling unit still runs (the stage equals its per-item filterMap
specification) — whereas in the scrape and categorize stages a unit failure
propagates: those stages return normally only if every work-set item's fetch
(resp. its LLM call, when the heuristic yields nothing) succeeded. -/
theorem per_item_failure_isolation
    (draft : Speaker → Except Str EmailDraft) (gdone : List (Option Str))
    (gspeakers : List Speaker) (ts : Option (Finset CompanyCategory))
    (llm : Speaker → Except Str CompanyCategory) (cdone : List (Option Str))
    (cspeakers : List Speaker)
    (f : Str → Except Str Str) (pi : Str → List SpeakerSeed)
    (pd : Str → Str → Option Str → Speaker) (el : Str → List Str)
    (pt : Str → Option Str) (limit : Option Nat) (sdone : List (Option Str)) :
    (generate_emails draft gdone gspeakers ts =
      ((selectedSpeakers (resolveTargetSet ts) gspeakers).filterMap
          (generateRowSpec draft gdone),
       (selectedSpeakers (resolveTargetSet ts) gspeakers).filterMap
          (generateRecSpec draft gdone),
       (selectedSpeakers (resolveTargetSet ts) gspeakers).filter
          (fun sp => !decide (sp.url ∈ gdone)))) ∧
    ((categorize_all llm cdone cspeakers).isOk = true →
      ∀ sp ∈ cspeakers, sp.url ∉ cdone → heuristic_category sp = none →
        (llm sp).isOk = true) ∧
    ((scrape_all f pi pd el pt limit sdone).isOk = true →
      ∀ idx, f INDEX = .ok idx →
        ∀ seed ∈ applyLimit limit (pi idx), (some seed.url) ∉ sdone →
          (f seed.url).isOk = true) := by
  refine ⟨?_, ?_, ?_⟩
  · exact generateGo_eq_spec draft gdone _
  · exact categorizeGo_ok_units llm cdone cspeakers
  · intro hOk idx hidx
    unfold scrape_all at hOk
    rw [hidx] at hOk
    simp only [except_map_isOk] at hOk
    exact scrapeGo_fetch_ok _ hOk

/-- Witness for the amended C4 at concrete inputs: with a draft oracle failing
for speaker `C` only, the generate stage still produces `A`'s row and append
and drafts both, excluding only `C`; and from concrete successful categorize
and scrape runs the per-unit success of the oracles follows. -/
theorem per_item_failure_isolation_witness :
    generate_emails draftFailC [] [spA, spC] none =
      ([mkRowOut spA ⟨str "s", str "b"⟩], [mkEmailRec spA ⟨str "s", str "b"⟩],
       [spA, spC]) ∧
    (llmOther spNoKw).isOk = true ∧
    (fOk seed1.url).isOk = true := by
  refine ⟨?_, ?_, ?_⟩
  · have h := (per_item_failure_isolation draftFailC [] [spA, spC] none llmOther []
      [spNoKw] fOk piA pd0 el0 pt0 none []).1
    rw [h]
    decide
  · exact (per_item_failure_isolation draftFailC [] [spA, spC] none llmOther []
      [spNoKw] fOk piA pd0 el0 pt0 none []).2.1 (by decide) spNoKw (by decide)
      (by decide) (by decide)
  · exact (per_item_failure_isolation draftFailC [] [spA, spC] none llmOther []
      [spNoKw] fOk piA pd0 el0 pt0 none []).2.2 (by decide) (str "<html>")
      (by decide) seed1 (by decide) (by decide)

theorem scrapeGo_all_done {f : Str → Except Str Str}
    {pd : Str → Str → Option Str → Speaker} {el : Str → List Str}
    {pt : Str → Option Str} {done : List (Option Str)} :
    ∀ seeds : List SpeakerSeed, (∀ seed ∈ seeds, (some seed.url) ∈ done) →
      scrapeGo f pd el pt done seeds = .ok ([], [], []) := by
  intro seeds
  induction seeds with
  | nil => intro _; rfl
  | cons x rest ih =>
      intro h
      have hx : (some x.url) ∈ done := h x (by simp)
      simp only [scrapeGo, if_pos hx]
      exact ih (fun s hs => h s (by simp [hs]))

theorem scrapeGo_covers {f : Str → Except Str Str}
    {pd : Str → Str → Option Str → Speaker} {el : Str → List Str}
    {pt : Str → Option Str} {done : List (Option Str)}
    (hurl : ∀ html url nm, (pd html url nm).url = some url) :
    ∀ (seeds : List SpeakerSeed) (out recs : List Speaker) (calls : List Str),
      scrapeGo f pd el pt done seeds = .ok (out, recs, calls) →
      ∀ seed ∈ seeds,
        (some seed.url) ∈ done ∨ (some seed.url) ∈ recs.map (fun sp => sp.url) := by
  intro seeds
  induction seeds with
  | nil => intro out recs calls h seed hmem; simp at hmem
  | cons x rest ih =>
      intro out recs calls h seed hmem
      by_cases hx : (some x.url) ∈ done
      · simp only [scrapeGo, if_pos hx] at h
        rcases List.mem_cons.mp hmem with he | he
        · subst he; exact Or.inl hx
        · exact ih out recs calls h seed he
      · simp only [scrapeGo, if_neg hx] at h
        cases hs : scrapeOne f pd el pt x with
        | error e => rw [hs] at h; cases h
        | ok p =>
            rw [hs] at h
            obtain ⟨⟨o1, o2, o3⟩, ho, hv⟩ := except_map_ok h
            have h2 : recs = p.1 :: o2 := congrArg (fun t => t.2.1) hv
            have hpu : p.1.url = some x.url := by
              obtain ⟨sp1, c1⟩ := p
              exact scrapeOne_url hurl hs
            rcases List.mem_cons.mp hmem with he | he
            · subst he
              refine Or.inr ?_
              rw [h2]
              simp [hpu]
            · rcases ih o1 o2 o3 ho seed he with hc | hc
              · exact Or.inl hc
              · refine Or.inr ?_
                rw [h2]
                simp only [List.map_cons, List.mem_cons]
                exact Or.inr hc

theorem categorizeGo_all_done {llm : Speaker → Except Str CompanyCategory}
    {done : List (Option Str)} :
    ∀ speakers : List Speaker, (∀ sp ∈ speakers, sp.url ∈ done) →
      categorizeGo llm done speakers = .ok (speakers, [], []) := by
  intro speakers
  induction speakers with
  | nil => intro _; rfl
  | cons x rest ih =>
      intro h
      have hx : x.url ∈ done := h x (by simp)
      simp only [categorizeGo, if_pos hx]
      rw [ih (fun s hs => h s (by simp [hs]))]
      rfl

theorem categorizeGo_covers {llm : Speaker → Except Str CompanyCategory}
    {done : List (Option Str)} :
    ∀ (speakers out : List Speaker) (recs : List (Speaker × Str))
      (calls : List Speaker),
      categorizeGo llm done speakers = .ok (out, recs, calls) →
      ∀ sp ∈ speakers, sp.url ∈ done ∨ sp.url ∈ recs.map (fun r => r.1.url) := by
  intro speakers
  induction speakers with
  | nil => intro out recs calls h sp hmem; simp at hmem
  | cons x rest ih =>
      intro out recs calls h sp hmem
      by_cases hx : x.url ∈ done
      · simp only [categorizeGo, if_pos hx] at h
        obtain ⟨⟨o1, o2, o3⟩, ho, hv⟩ := except_map_ok h
        have h2 : recs = o2 := congrArg (fun t => t.2.1) hv
        rcases List.mem_cons.mp hmem with he | he
        · subst he; exact Or.inl hx
        · rcases ih o1 o2 o3 ho sp he with hc | hc
          · exact Or.inl hc
          · refine Or.inr ?_
            rw [h2]
            exact hc
      · simp only [categorizeGo, if_neg hx] at h
        cases hc : categorize llm x with
        | error e => rw [hc] at h; cases h
        | ok p =>
            rw [hc] at h
            obtain ⟨⟨o1, o2, o3⟩, ho, hv⟩ := except_map_ok h
            have h2 : recs = (p.1, p.2) :: o2 := by
              have := congrArg (fun t => t.2.1) hv
              simpa using this
            have hpu : p.1.url = x.url := categorize_preserves_url hc
            rcases List.mem_cons.mp hmem with he | he
            · subst he
              refine Or.inr ?_
              rw [h2]
              simp [hpu]
            · rcases ih o1 o2 o3 ho sp he with hcc | hcc
              · exact Or.inl hcc
              · refine Or.inr ?_
                rw [h2]
                simp only [List.map_cons, List.mem_cons]
                exact Or.inr hcc

theorem generateGo_all_done {draft : Speaker → Except Str EmailDraft}
    {done : List (Option Str)} :
    ∀ sel : List Speaker, (∀ sp ∈ sel, sp.url ∈ done) →
      generateGo draft done sel = ([], [], []) := by
  intro sel
  induction sel with
  | nil => intro _; rfl
  | cons x rest ih =>
      intro h
      have hx : x.url ∈ done := h x (by simp)
      simp only [generateGo, if_pos hx]
      exact ih (fun s hs => h s (by simp [hs]))

theorem generateGo_covers {draft : Speaker → Except Str EmailDraft}
    {done : List (Option Str)} :
    ∀ sel : List Speaker,
      (∀ sp ∈ (generateGo draft done sel).2.2, (draft sp).isOk = true) →
      ∀ sp ∈ sel, sp.url ∈ done ∨
        sp.url ∈ (generateGo draft done sel).2.1.map (fun r => r.url) := by
  intro sel
  induction sel with
  | nil => intro _ sp hmem; simp at hmem
  | cons x rest ih =>
      intro hok sp hmem
      by_cases hx : x.url ∈ done
      · rcases List.mem_cons.mp hmem with he | he
        · subst he; exact Or.inl hx
        · have hok' : ∀ s ∈ (generateGo draft done rest).2.2, (draft s).isOk = true := by
            intro s hs
            apply hok
            simpa only [generateGo, if_pos hx] using hs
          rcases ih hok' sp he with hc | hc
          · exact Or.inl hc
          · refine Or.inr ?_
            simpa only [generateGo, if_pos hx] using hc
      · cases hdx : draft x with
        | ok d =>
            have hok' : ∀ s ∈ (generateGo draft done rest).2.2, (draft s).isOk = true := by
              intro s hs
              apply hok
              simp only [generateGo, if_neg hx, hdx]
              exact List.mem_cons_of_mem _ hs
            rcases List.mem_cons.mp hmem with he | he
            · subst he
              refine Or.inr ?_
              simp only [generateGo, if_neg hx, hdx, List.map_cons, List.mem_cons]
              exact Or.inl rfl
            · rcases ih hok' sp he with hc | hc
              · exact Or.inl hc
              · refine Or.inr ?_
                simp only [generateGo, if_neg hx, hdx, List.map_cons, List.mem_cons]
                exact Or.inr hc
        | error e =>
            have hmem2 : x ∈ (generateGo draft done (x :: rest)).2.2 := by
              simp only [generateGo, if_neg hx, hdx]
              exact List.mem_cons_self _ _
            have := hok x hmem2
            rw [hdx] at this
            simp [Except.isOk, Except.toBool] at this

/-- Counterexample to C2 as stated: a second scrape run against the checkpoint
log of the first still performs a network call — the unconditional index-page
fetch — so its external traffic is not empty (it is item-free, but not
call-free). -/
theorem second_scrape_run_fetches_index :
    scrape_all fOk piA pd0 el0 pt0 none [] =
      .ok ([spk1], [spk1], [INDEX, str "s1"]) ∧
    scrape_all fOk piA pd0 el0 pt0 none [some (str "s1")] =
      .ok ([], [], [INDEX]) ∧
    [INDEX] ≠ ([] : List Str) := by
  refine ⟨by decide, by decide, by decide⟩

/-- C2 (amended): running a stage a second time against unchanged input and
the checkpoint log produced by a fully successful first run appends zero new
checkpoint records, and every item whose identifier is already in the log is
excluded from the run's external traffic; the categorize and email stages then
make zero service calls, while the scrape stage still makes exactly one
network call — the unconditional index-page fetch. -/
theorem second_run_skips_checkpointed
    (f : Str → Except Str Str) (pi : Str → List SpeakerSeed)
    (pd : Str → Str → Option Str → Speaker) (el : Str → List Str)
    (pt : Str → Option Str) (limit : Option Nat) (sdone : List (Option Str))
    (sout srecs : List Speaker) (scalls : List Str)
    (llm : Speaker → Except Str CompanyCategory) (cdone : List (Option Str))
    (cspeakers cout : List Speaker) (crecs : List (Speaker × Str))
    (ccalls : List Speaker)
    (draft : Speaker → Except Str EmailDraft) (gdone : List (Option Str))
    (gspeakers : List Speaker) (ts : Option (Finset CompanyCategory)) :
    ((∀ html url nm, (pd html url nm).url = some url) →
      scrape_all f pi pd el pt limit sdone = .ok (sout, srecs, scalls) →
      scrape_all f pi pd el pt limit (sdone ++ srecs.map (fun sp => sp.url)) =
        .ok ([], [], [INDEX])) ∧
    (categorize_all llm cdone cspeakers = .ok (cout, crecs, ccalls) →
      categorize_all llm (cdone ++ crecs.map (fun r => r.1.url)) cspeakers =
        .ok (cspeakers, [], [])) ∧
    ((∀ sp ∈ (generate_emails draft gdone gspeakers ts).2.2,
        (draft sp).isOk = true) →
      generate_emails draft
        (gdone ++ (generate_emails draft gdone gspeakers ts).2.1.map
          (fun r => r.url)) gspeakers ts = ([], [], [])) := by
  refine ⟨?_, ?_, ?_⟩
  · intro hurl h
    unfold scrape_all at h ⊢
    cases hfi : f INDEX with
    | error e => simp only [hfi] at h; cases h
    | ok idx =>
        simp only [hfi] at h ⊢
        obtain ⟨⟨o1, o2, o3⟩, ho, hv⟩ := except_map_ok h
        have h2 : srecs = o2 := congrArg (fun t => t.2.1) hv
        have hcov := scrapeGo_covers hurl _ o1 o2 o3 ho
        have hall : ∀ seed ∈ applyLimit limit (pi idx),
            (some seed.url) ∈ sdone ++ srecs.map (fun sp => sp.url) := by
          intro seed hs
          rcases hcov seed hs with hc | hc
          · exact List.mem_append_left _ hc
          · refine List.mem_append_right _ ?_
            rw [h2]
            exact hc
        rw [scrapeGo_all_done _ hall]
        rfl
  · intro h
    have hcov := categorizeGo_covers cspeakers cout crecs ccalls h
    have hall : ∀ sp ∈ cspeakers,
        sp.url ∈ cdone ++ crecs.map (fun r => r.1.url) := by
      intro sp hs
      rcases hcov sp hs with hc | hc
      · exact List.mem_append_left _ hc
      · exact List.mem_append_right _ hc
    exact categorizeGo_all_done cspeakers hall
  · intro hok
    unfold generate_emails at hok ⊢
    have hcov := generateGo_covers _ hok
    apply generateGo_all_done
    intro sp hs
    rcases hcov sp hs with hc | hc
    · exact List.mem_append_left _ hc
    · exact List.mem_append_right _ hc

/-- Witness for the amended C2 at concrete inputs: re-running each stage
against the log its first run produced appends nothing, returns the replayed
items where applicable, and makes no per-item calls (the scrape run's only
call is the index fetch). -/
theorem second_run_skips_checkpointed_witness :
    scrape_all fOk piA pd0 el0 pt0 none ([] ++ [spk1].map (fun sp => sp.url)) =
      .ok ([], [], [INDEX]) ∧
    categorize_all llmOther
      ([] ++ [(spNoKwOther, str "llm")].map (fun r => r.1.url)) [spNoKw] =
      .ok ([spNoKw], [], []) ∧
    generate_emails draftOk
      ([] ++ (generate_emails draftOk [] [spA] none).2.1.map (fun r => r.url))
      [spA] none = ([], [], []) := by
  refine ⟨?_, ?_, ?_⟩
  · exact (second_run_skips_checkpointed fOk piA pd0 el0 pt0 none [] [spk1] [spk1]
      [INDEX, str "s1"] llmOther [] [spNoKw] [spNoKwOther]
      [(spNoKwOther, str "llm")] [spNoKw] draftOk [] [spA] none).1
      (fun _ _ _ => rfl) (by decide)
  · exact (second_run_skips_checkpointed fOk piA pd0 el0 pt0 none [] [spk1] [spk1]
      [INDEX, str "s1"] llmOther [] [spNoKw] [spNoKwOther]
      [(spNoKwOther, str "llm")] [spNoKw] draftOk [] [spA] none).2.1 (by decide)
  · exact (second_run_skips_checkpointed fOk piA pd0 el0 pt0 none [] [spk1] [spk1]
      [INDEX, str "s1"] llmOther [] [spNoKw] [spNoKwOther]
      [(spNoKwOther, str "llm")] [spNoKw] draftOk [] [spA] none).2.2 (by decide)

theorem materializeRows_length :
    ∀ (log : List EmailRec) (seen : List Str),
      (∀ d ∈ log, wellFormedRec d = true) →
      (materializeRows seen log).length = (distinctUrls seen log).length := by
  intro log
  induction log with
  | nil => intro seen _; rfl
  | cons d rest ih =>
      intro seen h
      have hd : (rowOfRec d).isSome = true := h d (by simp)
      have hrest := fun s => ih s (fun x hx => h x (by simp [hx]))
      cases hu : d.url with
      | none => simp only [materializeRows, distinctUrls, hu]; exact hrest seen
      | some u =>
          by_cases he : u.isEmpty = true
          · simp only [materializeRows, distinctUrls, hu, if_pos he]
            exact hrest seen
          · by_cases hs : u ∈ seen
            · simp only [materializeRows, distinctUrls, hu, if_neg he, if_pos hs]
              exact hrest seen
            · obtain ⟨r, hr⟩ := Option.isSome_iff_exists.mp hd
              simp only [materializeRows, distinctUrls, hu, if_neg he, if_neg hs,
                hr, List.length_cons]
              rw [hrest (u :: seen)]

theorem dropDup_all_seen :
    ∀ (l : List CsvRow) (seen : List (Str × Option Str)),
      (∀ r ∈ l, csvKey r ∈ seen) → dropDupNameCompany seen l = [] := by
  intro l
  induction l with
  | nil => intro _ _; rfl
  | cons r rest ih =>
      intro seen h
      have hr : csvKey r ∈ seen := h r (by simp)
      simp only [dropDupNameCompany, if_pos hr]
      exact ih seen (fun s hs => h s (by simp [hs]))

theorem dropDup_append_self :
    ∀ (l tail : List CsvRow) (seen : List (Str × Option Str)),
      (l.map csvKey).Nodup → (∀ r ∈ l, csvKey r ∉ seen) →
      (∀ r ∈ tail, csvKey r ∈ seen ∨ csvKey r ∈ l.map csvKey) →
      dropDupNameCompany seen (l ++ tail) = l := by
  intro l
  induction l with
  | nil =>
      intro tail seen _ _ htail
      rw [List.nil_append]
      exact dropDup_all_seen tail seen
        (fun r hr => (htail r hr).resolve_right (by simp))
  | cons r rest ih =>
      intro tail seen hnd hseen htail
      rw [List.map_cons, List.nodup_cons] at hnd
      have hr : csvKey r ∉ seen := hseen r (by simp)
      simp only [List.cons_append, dropDupNameCompany, if_neg hr]
      congr 1
      apply ih tail (csvKey r :: seen) hnd.2
      · intro s hs hcon
        rcases List.mem_cons.mp hcon with hc | hc
        · exact hnd.1 (hc ▸ List.mem_map_of_mem csvKey hs)
        · exact hseen s (List.mem_cons_of_mem _ hs) hc
      · intro s hs
        rcases htail s hs with hc | hc
        · exact Or.inl (List.mem_cons_of_mem _ hc)
        · rw [List.map_cons] at hc
          rcases List.mem_cons.mp hc with hc2 | hc2
          · exact Or.inl (by rw [hc2]; exact List.mem_cons_self _ _)
          · exact Or.inr hc2

/-- Counterexample to C6 as stated: with a fixed log holding two identifiers
(`u1`, `u2`) whose records share speaker name and company, the first
materialization writes two rows, but the second — merging with the
now-existing report file and deduplicating on (name, company), not on the
identifier — collapses them to one row: the outputs differ and `u2` no longer
has a row. -/
theorem report_second_materialization_differs :
    materializeReport [recU1, recU2] none =
      some [⟨str "Alice", none, some (str "Acme"), str "Builder", str "s1", str "b1"⟩,
            ⟨str "Alice", none, some (str "Acme"), str "Owner", str "s2", str "b2"⟩] ∧
    materializeReport [recU1, recU2] (materializeReport [recU1, recU2] none) =
      some [⟨str "Alice", none, some (str "Acme"), str "Builder", str "s1", str "b1"⟩] ∧
    materializeReport [recU1, recU2] (materializeReport [recU1, recU2] none) ≠
      materializeReport [recU1, recU2] none := by
  refine ⟨by decide, by decide, by decide⟩

/-- C6 (amended): materializing into a fresh (absent/empty) report file yields
exactly one row per distinct non-empty identifier of the log (when every
record is well formed), and re-materializing over the produced file reproduces
it provided the rows' (speaker name, speaker company) keys are pairwise
distinct — `write_csv` merges with the existing file and deduplicates on
(name, company) rather than on the identifier, so rows of distinct identifiers
sharing that key are collapsed by the second pass (see the counterexample). -/
theorem report_materialization_amended (log : List EmailRec) :
    ((∀ d ∈ log, wellFormedRec d = true) →
      (materializeRows [] log).length = (distinctUrls [] log).length) ∧
    (((materializeRows [] log).map
        (fun r => (r.speaker_name, r.speaker_company))).Nodup →
      materializeReport log (materializeReport log none) =
        materializeReport log none) := by
  constructor
  · intro h
    exact materializeRows_length log [] h
  · intro hnd
    cases hrows : materializeRows [] log with
    | nil => simp [materializeReport, write_csv, hrows]
    | cons r0 rs =>
        rw [hrows] at hnd
        have hkey : (csvKey ∘ toCsvRow) =
            (fun r : RowOut => (r.speaker_name, r.speaker_company)) := rfl
        have hnd' : (((r0 :: rs).map toCsvRow).map csvKey).Nodup := by
          rw [List.map_map, hkey]
          exact hnd
        have hdd := dropDup_append_self ((r0 :: rs).map toCsvRow)
          ((r0 :: rs).map toCsvRow) [] hnd' (fun r _ => by simp)
          (fun r hr => Or.inr (List.mem_map_of_mem csvKey hr))
        have h1 : materializeReport log none = some ((r0 :: rs).map toCsvRow) := by
          show write_csv none (materializeRows [] log) = _
          rw [hrows]
          rfl
        have h2 : materializeReport log (some ((r0 :: rs).map toCsvRow)) =
            some (dropDupNameCompany []
              ((r0 :: rs).map toCsvRow ++ (r0 :: rs).map toCsvRow)) := by
          show write_csv _ (materializeRows [] log) = _
          rw [hrows]
          rfl
        rw [h1, h2, hdd]

/-- Witness for the amended C6 at a concrete input: a two-record log with
distinct identifiers and distinct (name, company) keys materializes to one row
per identifier, and a second materialization over the produced file reproduces
it unchanged. -/
theorem report_materialization_amended_witness :
    (materializeRows [] [recU1, recB2]).length =
      (distinctUrls [] [recU1, recB2]).length ∧
    materializeReport [recU1, recB2] (materializeReport [recU1, recB2] none) =
      materializeReport [recU1, recB2] none := by
  exact ⟨(report_materialization_amended [recU1, recB2]).1 (by decide),
    (report_materialization_amended [recU1, recB2]).2 (by decide)⟩

theorem except_isOk_false {α : Type} {e : Except Str α} (h : e.isOk = false) :
    ∃ err, e = .error err := by
  cases e with
  | error err => exact ⟨err, rfl⟩
  | ok v => simp [Except.isOk, Except.toBool] at h

theorem retryExec_attempts_le {α : Type} (op : Nat → Except Str α) :
    ∀ (fuel i : Nat), (retryExec op i fuel).2 ≤ fuel := by
  intro fuel
  induction fuel with
  | zero => intro i; exact le_refl 0
  | succ n ih =>
      intro i
      cases n with
      | zero => exact le_refl 1
      | succ m =>
          cases hop : op i with
          | ok v => simp [retryExec, hop]
          | error e =>
              simp only [retryExec, hop]
              exact Nat.succ_le_succ (ih (i + 1))

/-- C8 (spec-modelled): under the parameters the source passes to the
`tenacity` decorators shared by `Http.fetch`, `Categorizer._llm` and
`Emailer.draft` — `stop_after_attempt(5)`,
`wait_exponential(multiplier=0.5, max=10) + wait_random(0, 0.5)` — at most 5
attempts are made; when all 5 fail the last attempt's error surfaces to the
caller (the stage retries no further); and the wait before the k-th retry is
an exponential backoff starting at 0.5 time-units, doubling each retry, capped
at 10, plus a jitter between 0 and 0.5. -/
theorem retry_policy_spec {α : Type} (op : Nat → Except Str α)
    (jitter : Nat → ℚ) (hj : ∀ k, 0 ≤ jitter k ∧ jitter k ≤ 1/2) :
    (retryPolicy op).2 ≤ 5 ∧
    ((∀ k, k < 5 → (op k).isOk = false) → retryPolicy op = (op 4, 5)) ∧
    wait_exponential (1/2) 10 0 = 1/2 ∧
    (∀ k, wait_exponential (1/2) 10 (k + 1) =
      min 10 (2 * wait_exponential (1/2) 10 k)) ∧
    (∀ k, wait_exponential (1/2) 10 k ≤ 10) ∧
    (∀ k, wait_exponential (1/2) 10 k ≤ retryWait jitter k ∧
      retryWait jitter k ≤ wait_exponential (1/2) 10 k + 1/2) := by
  refine ⟨retryExec_attempts_le op 5 0, ?_, ?_, ?_, ?_, ?_⟩
  · intro hfail
    obtain ⟨e0, h0⟩ := except_isOk_false (hfail 0 (by norm_num))
    obtain ⟨e1, h1⟩ := except_isOk_false (hfail 1 (by norm_num))
    obtain ⟨e2, h2⟩ := except_isOk_false (hfail 2 (by norm_num))
    obtain ⟨e3, h3⟩ := except_isOk_false (hfail 3 (by norm_num))
    simp only [retryPolicy, retryExec, h0, h1, h2, h3]
  · norm_num [wait_exponential]
  · intro k
    unfold wait_exponential
    rcases le_total ((1/2 : ℚ) * 2 ^ k) 10 with h | h
    · rw [min_eq_right h]
      congr 1
      ring
    · have h2x : (1/2 : ℚ) * 2 ^ (k + 1) = 2 * ((1/2) * 2 ^ k) := by ring
      rw [min_eq_left h, h2x, min_eq_left (by linarith),
        min_eq_left (by norm_num)]
  · intro k
    exact min_le_left _ _
  · intro k
    constructor
    · exact le_add_of_nonneg_right (hj k).1
    · exact add_le_add_left (hj k).2 _

/-- Witness for C8 at a concrete input: an operation that always times out is
attempted exactly 5 times and the final error surfaces. -/
theorem retry_policy_spec_witness :
    retryPolicy (fun _ => (.error (str "timeout") : Except Str Str)) =
      (.error (str "timeout"), 5) ∧
    (retryPolicy (fun _ => (.error (str "timeout") : Except Str Str))).2 ≤ 5 := by
  have h := retry_policy_spec (fun _ => (.error (str "timeout") : Except Str Str))
    (fun _ => 0) (fun _ => ⟨le_refl 0, by norm_num⟩)
  exact ⟨h.2.1 (fun _ _ => rfl), h.1⟩
